import Mathlib

/-!
Verification development for the zfs-incremental-backup program.

Shallow embedding of the core pure logic of the repository:
diff entries and their optimizer, the snapshot upload byte stream,
upload size accounting, the stream-nonce derivation, the chunked
encryption adapter, the re-chunker, the stepwise retry driver and the
diff subsystem.  Byte values are modelled as natural numbers below 256,
machine integers as Nat (the quantities involved are sizes and counts
that the source computes in u64 or usize without overflow).
-/

namespace ZfsBackup

/-- A filesystem path, modelled as its list of components
(mirrors how the Rust code compares PathBuf values: component-wise). -/
abbrev FsPath := List String

/-- File kinds retained by the diff subsystem (src/diff_entry.rs, FileType). -/
inductive FileType where
  | Directory
  | RegularFile
deriving DecidableEq, Repr

/-- Change kind of a diff entry (src/diff_entry.rs, DiffType). -/
inductive DiffType (T : Type) where
  | Removed
  | Created (c : T)
  | Modified (c : T)
  | Renamed (target : FsPath)
deriving DecidableEq, Repr

/-- content_data of src/diff_entry.rs: payload of Created and Modified. -/
def DiffType.content_data {T : Type} : DiffType T → Option T
  | .Created c => some c
  | .Modified c => some c
  | _ => none

/-- One diff entry (src/diff_entry.rs, DiffEntry). -/
structure DiffEntry (T : Type) where
  path : FsPath
  file_type : FileType
  diff_type : DiffType T
deriving DecidableEq, Repr

/-- File metadata captured for created and modified regular files
(src/file_meta_data.rs).  Times are modelled as optional tick counts. -/
structure FileMetaData where
  accessed : Option Nat
  created : Option Nat
  modified : Option Nat
  len : Nat
deriving DecidableEq, Repr

/-- LEB128 varint encoding of a length, byte list little-endian
with continuation bits; models the external varint_simd::encode used by
the source (the spec fixes the canonical little-endian varint format). -/
def varintEncodeAux : Nat → Nat → List Nat
  | 0, _ => []
  | fuel + 1, n =>
    if n < 128 then [n]
    else (n % 128 + 128) :: varintEncodeAux fuel (n / 128)

def varintEncode (n : Nat) : List Nat := varintEncodeAux (n + 1) n

/-- Big-endian byte decomposition of a u64 value, as in Rust
u64::to_be_bytes (src/backup_steps.rs uses it on the snapshot count). -/
def u64BeBytes (n : Nat) : List Nat :=
  [n / 2 ^ 56 % 256, n / 2 ^ 48 % 256, n / 2 ^ 40 % 256, n / 2 ^ 32 % 256,
   n / 2 ^ 24 % 256, n / 2 ^ 16 % 256, n / 2 ^ 8 % 256, n % 256]

/-- Stream-nonce derivation of the Upload step
(src/backup_steps.rs lines 276-286): take the big-endian bytes of the
number of snapshots already recorded in the hot metadata, split off the
first byte; if that byte is non-zero fail with nonce exhaustion,
otherwise use the remaining 7 bytes as the nonce. -/
def deriveStreamNonce (snapshotCount : Nat) : Except String (List Nat) :=
  let bytes := u64BeBytes snapshotCount
  let unused := bytes.take 1
  let nonce := bytes.drop 1
  if unused ≠ [0] then .error "Ran out of unique nonces" else .ok nonce

/-- The 7 low-order bytes of the big-endian u64 representation of a
count, written out directly; this is the nonce the claim describes. -/
def low7BeBytes (n : Nat) : List Nat :=
  [n / 2 ^ 48 % 256, n / 2 ^ 40 % 256, n / 2 ^ 32 % 256,
   n / 2 ^ 24 % 256, n / 2 ^ 16 % 256, n / 2 ^ 8 % 256, n % 256]

/-- The nonce derivation, rewritten as a single test of the high byte. -/
theorem deriveStreamNonce_eq (count : Nat) :
    deriveStreamNonce count =
      if count / 2 ^ 56 % 256 = 0 then .ok (low7BeBytes count)
      else .error "Ran out of unique nonces" := by
  by_cases h : count / 2 ^ 56 % 256 = 0 <;>
    simp [deriveStreamNonce, u64BeBytes, low7BeBytes, h]

/-- C5: when encryption is enabled the Upload step derives the 7-byte
stream nonce as the 7 low-order bytes of the big-endian u64
representation of the hot-metadata snapshot count, and it fails with a
nonce-exhaustion error exactly when the high-order byte of that u64 is
non-zero, i.e. exactly when the count has reached 2 ^ 56. -/
theorem c5_nonce_derivation (count : Nat) (hcount : count < 2 ^ 64) :
    (count < 2 ^ 56 → deriveStreamNonce count = .ok (low7BeBytes count)) ∧
    (2 ^ 56 ≤ count → ∃ msg, deriveStreamNonce count = .error msg) ∧
    ((deriveStreamNonce count).isOk ↔ count / 2 ^ 56 % 256 = 0) := by
  refine ⟨?_, ?_, ?_⟩
  · intro h
    have hz : count / 2 ^ 56 = 0 := Nat.div_eq_of_lt h
    rw [deriveStreamNonce_eq, if_pos (by rw [hz])]
  · intro h
    have hpos : count / 2 ^ 56 ≠ 0 := by
      have h1 : 2 ^ 56 * 1 ≤ count := by omega
      have := (Nat.le_div_iff_mul_le (k := 2 ^ 56) (by norm_num)).mpr
        (by omega : 1 * 2 ^ 56 ≤ count)
      omega
    have hlt : count / 2 ^ 56 < 256 := by
      rw [Nat.div_lt_iff_lt_mul (by norm_num)]
      omega
    have hmod : count / 2 ^ 56 % 256 = count / 2 ^ 56 := Nat.mod_eq_of_lt hlt
    refine ⟨"Ran out of unique nonces", ?_⟩
    rw [deriveStreamNonce_eq, if_neg (by omega)]
  · rw [deriveStreamNonce_eq]
    constructor
    · intro hok
      by_contra hne
      rw [if_neg hne] at hok
      simp [Except.isOk, Except.toBool] at hok
    · intro hz
      rw [if_pos hz]
      simp [Except.isOk, Except.toBool]

/-- Witness for C5 at count 3: the nonce is the 7 low bytes and no
error is raised. -/
theorem c5_nonce_derivation_witness :
    deriveStreamNonce 3 = .ok (low7BeBytes 3) :=
  (c5_nonce_derivation 3 (by norm_num)).1 (by norm_num)

/-! ## Snapshot upload stream (src/snapshot_upload_stream_2.rs)

The stream is parametrized by the record serializer (the external
postcard crate: `ser e` is the canonical binary encoding of the entry)
and by the file contents on the snapshot mount (`content e` is the byte
list of the file at the entry path; the source opens
mount_point.join(path) and reads it).  The stream of Bytes items is
modelled as the list of emitted byte chunks. -/

/-- Chunks emitted for one diff entry together with the remaining
start_index, translated from the body of the flat_map closure of
snapshot_upload_stream.  The varint region is emitted from offset
skip1 (note the source compares skip1 against the record length, not
the varint length, which only ever adds an empty chunk); the record
region is pushed whole whenever not skipped entirely; the body is
seeked to the remaining offset.  Mirrors the source exactly, including
the fact that the record is never sliced and that start_index is left
unchanged after an in-body seek. -/
def entryUploadChunks (ser : DiffEntry (Option FileMetaData) → List Nat)
    (content : DiffEntry (Option FileMetaData) → List Nat)
    (e : DiffEntry (Option FileMetaData)) (startIndex : Nat) :
    List (List Nat) × Nat :=
  let postcardBytes := ser e
  let postcardSizeBytes := varintEncode postcardBytes.length
  let skip1 := min startIndex postcardSizeBytes.length
  let start1 := startIndex - skip1
  let chunks1 := if skip1 < postcardBytes.length
    then [postcardSizeBytes.drop skip1] else []
  let skip2 := min start1 postcardBytes.length
  let start2 := start1 - skip2
  let chunks2 := if skip2 < postcardBytes.length then [postcardBytes] else []
  match e.diff_type.content_data with
  | some (some fileMetaData) =>
    if start2 > 0 then
      if start2 ≥ fileMetaData.len then
        (chunks1 ++ chunks2, start2 - fileMetaData.len)
      else
        (chunks1 ++ chunks2 ++ [(content e).drop start2], start2)
    else
      (chunks1 ++ chunks2 ++ [content e], start2)
  | _ => (chunks1 ++ chunks2, start2)

/-- snapshot_upload_stream of src/snapshot_upload_stream_2.rs: the
chunks emitted for the whole diff list, threading start_index through
the entries in order. -/
def snapshotUploadChunks (ser content : DiffEntry (Option FileMetaData) → List Nat) :
    List (DiffEntry (Option FileMetaData)) → Nat → List (List Nat)
  | [], _ => []
  | e :: rest, startIndex =>
    let r := entryUploadChunks ser content e startIndex
    r.1 ++ snapshotUploadChunks ser content rest r.2

/-- Byte concatenation of the snapshot upload stream. -/
def snapshotUploadBytes (ser content : DiffEntry (Option FileMetaData) → List Nat)
    (entries : List (DiffEntry (Option FileMetaData))) (startIndex : Nat) : List Nat :=
  (snapshotUploadChunks ser content entries startIndex).flatten

/-- Concrete diff entry for exercising the upload stream: a created
regular file of 2 bytes at path a. -/
def c1Entry : DiffEntry (Option FileMetaData) :=
  ⟨["a"], .RegularFile, .Created (some ⟨none, none, none, 2⟩)⟩

/-- Postcard encoding of c1Entry (string path of length 1, variant
indices, three None times, length 2): 9 bytes. -/
def c1Ser : DiffEntry (Option FileMetaData) → List Nat :=
  fun _ => [1, 97, 1, 1, 1, 0, 0, 0, 2]

/-- File contents of the single file of the c1 scenario: 2 bytes,
matching the recorded metadata length. -/
def c1Content : DiffEntry (Option FileMetaData) → List Nat :=
  fun _ => [10, 20]

/-- C1 fails on the code: skipping k bytes with k inside the record
region does not drop the first k bytes of the stream.  At skip 2 (one
varint byte plus one record byte) the stream still emits the whole
9-byte record, and at skip 11 (inside the first file body of a 2-entry
list) the leftover skip is also wrongly applied to the second entry,
eating its varint byte. -/
theorem c1_skip_bytes_bug :
    snapshotUploadBytes c1Ser c1Content [c1Entry] 0 =
      [9, 1, 97, 1, 1, 1, 0, 0, 0, 2, 10, 20] ∧
    snapshotUploadBytes c1Ser c1Content [c1Entry] 2 =
      [1, 97, 1, 1, 1, 0, 0, 0, 2, 10, 20] ∧
    snapshotUploadBytes c1Ser c1Content [c1Entry] 2 ≠
      (snapshotUploadBytes c1Ser c1Content [c1Entry] 0).drop 2 ∧
    snapshotUploadBytes c1Ser c1Content [c1Entry, c1Entry] 11 ≠
      (snapshotUploadBytes c1Ser c1Content [c1Entry, c1Entry] 0).drop 11 := by
  decide

/-! ## Upload size accounting (src/backup_steps.rs, Upload step) -/

/-- ENCRYPTION_CHUNK_SIZE of src/config.rs. -/
def ENCRYPTION_CHUNK_SIZE : Nat := 10000000

/-- MAX_OBJECT_SIZE of src/config.rs. -/
def MAX_OBJECT_SIZE : Nat := 5 * 1000 * 1000 * 1000

/-- Ceiling division as computed by u64::div_ceil. -/
def natDivCeil (a b : Nat) : Nat := a / b + if a % b = 0 then 0 else 1

/-- Body length used by the Upload step size computation:
diff_type.content_data().copied().flatten().map_or(0, |m| m.len). -/
def uploadBodyLen (e : DiffEntry (Option FileMetaData)) : Nat :=
  match e.diff_type.content_data with
  | some (some m) => m.len
  | _ => 0

/-- unencrypted_size of the Upload step (src/backup_steps.rs
lines 190-205): fold over the diff of varint length plus record length
plus body length. -/
def unencryptedSize (ser : DiffEntry (Option FileMetaData) → List Nat)
    (entries : List (DiffEntry (Option FileMetaData))) : Nat :=
  entries.foldl
    (fun sum e =>
      sum + (varintEncode (ser e).length).length + (ser e).length + uploadBodyLen e)
    0

/-- snapshot_upload_size of the Upload step: each encryption chunk
carries 16 extra bytes when encryption is configured. -/
def snapshotUploadSize (encryptionEnabled : Bool) (unencrypted : Nat) : Nat :=
  match encryptionEnabled with
  | false => unencrypted
  | true => unencrypted + natDivCeil unencrypted ENCRYPTION_CHUNK_SIZE * 16

/-- total_objects_count of the Upload step. -/
def totalObjectsCount (uploadSize : Nat) (createEmptyObjects : Bool) : Nat :=
  max (natDivCeil uploadSize MAX_OBJECT_SIZE)
    (match createEmptyObjects with
     | true => 1
     | false => 0)

/-- Body length as the claim words it: taken from the file metadata for
created and modified regular files, 0 otherwise. -/
def specBodyLen (e : DiffEntry (Option FileMetaData)) : Nat :=
  if e.file_type = .RegularFile then
    match e.diff_type.content_data with
    | some (some m) => m.len
    | _ => 0
  else 0

/-- Plaintext size as the claim words it: a sum over entries. -/
def specPlaintextSize (ser : DiffEntry (Option FileMetaData) → List Nat)
    (entries : List (DiffEntry (Option FileMetaData))) : Nat :=
  (entries.map
    (fun e => (varintEncode (ser e).length).length + (ser e).length + specBodyLen e)).sum

/-- Metadata shape established by the Diff step before Upload runs:
directories never carry a metadata payload in Created or Modified. -/
def uploadMetaInvariant (e : DiffEntry (Option FileMetaData)) : Bool :=
  match e.file_type, e.diff_type with
  | .Directory, .Created c => decide (c = none)
  | .Directory, .Modified c => decide (c = none)
  | _, _ => true

theorem uploadBodyLen_eq_specBodyLen (e : DiffEntry (Option FileMetaData))
    (h : uploadMetaInvariant e = true) : uploadBodyLen e = specBodyLen e := by
  rcases e with ⟨p, ft, dt⟩
  cases ft <;> cases dt <;>
    simp_all [uploadMetaInvariant, uploadBodyLen, specBodyLen, DiffType.content_data]

theorem foldl_add_eq_sum {α : Type} (f : α → Nat) (l : List α) (n : Nat) :
    l.foldl (fun s e => s + f e) n = n + (l.map f).sum := by
  induction l generalizing n with
  | nil => simp
  | cons a t ih => simp [ih, Nat.add_assoc]

/-- C3: the Upload step size accounting.  The plaintext size equals the
sum the spec describes (given the Diff-step metadata invariant), the
stream size adds 16 bytes per encryption chunk exactly when encryption
is enabled, the part count is the maximum of the ceiling division by
MAX_OBJECT_SIZE and the create_empty_objects floor, and an empty diff
yields one part with create_empty_objects and zero parts without. -/
theorem c3_upload_size_accounting
    (ser : DiffEntry (Option FileMetaData) → List Nat)
    (entries : List (DiffEntry (Option FileMetaData)))
    (enc createEmpty : Bool)
    (hmeta : ∀ e ∈ entries, uploadMetaInvariant e = true) :
    unencryptedSize ser entries = specPlaintextSize ser entries ∧
    snapshotUploadSize enc (unencryptedSize ser entries) =
      (if enc then
        specPlaintextSize ser entries +
          natDivCeil (specPlaintextSize ser entries) ENCRYPTION_CHUNK_SIZE * 16
       else specPlaintextSize ser entries) ∧
    totalObjectsCount (snapshotUploadSize enc (unencryptedSize ser entries)) createEmpty =
      max (natDivCeil (snapshotUploadSize enc (unencryptedSize ser entries)) MAX_OBJECT_SIZE)
        (if createEmpty then 1 else 0) ∧
    (entries = [] →
      totalObjectsCount (snapshotUploadSize enc (unencryptedSize ser entries)) createEmpty =
        if createEmpty then 1 else 0) := by
  have hsize : unencryptedSize ser entries = specPlaintextSize ser entries := by
    unfold unencryptedSize specPlaintextSize
    have hcongr :
        (entries.map (fun e =>
          (varintEncode (ser e).length).length + (ser e).length + uploadBodyLen e)).sum =
        (entries.map (fun e =>
          (varintEncode (ser e).length).length + (ser e).length + specBodyLen e)).sum := by
      induction entries with
      | nil => rfl
      | cons a t ih =>
        simp only [List.map_cons, List.sum_cons]
        rw [uploadBodyLen_eq_specBodyLen a (hmeta a (by simp)),
          ih (fun e he => hmeta e (by simp [he]))]
    rw [← hcongr]
    have := foldl_add_eq_sum
      (fun e => (varintEncode (ser e).length).length + (ser e).length + uploadBodyLen e)
      entries 0
    simpa [← Nat.add_assoc] using this
  refine ⟨hsize, ?_, ?_, ?_⟩
  · cases enc <;> simp [snapshotUploadSize, hsize]
  · cases createEmpty <;> simp [totalObjectsCount]
  · intro hnil
    subst hnil
    cases enc <;> cases createEmpty <;>
      simp [unencryptedSize, snapshotUploadSize, totalObjectsCount, natDivCeil]

/-- Concrete entries for the C3 witness: one created 5-byte regular
file. -/
def c3Entries : List (DiffEntry (Option FileMetaData)) :=
  [⟨["a"], .RegularFile, .Created (some ⟨none, none, none, 5⟩)⟩]

/-- Serializer for the C3 witness: a fixed 9-byte record. -/
def c3Ser : DiffEntry (Option FileMetaData) → List Nat :=
  fun _ => [1, 97, 1, 1, 1, 0, 0, 0, 5]

/-- Witness for C3 with encryption enabled and create_empty_objects
false, discharging the metadata hypothesis at concrete entries. -/
theorem c3_upload_size_accounting_witness :
    unencryptedSize c3Ser c3Entries = specPlaintextSize c3Ser c3Entries ∧
    snapshotUploadSize true (unencryptedSize c3Ser c3Entries) =
      (if true then
        specPlaintextSize c3Ser c3Entries +
          natDivCeil (specPlaintextSize c3Ser c3Entries) ENCRYPTION_CHUNK_SIZE * 16
       else specPlaintextSize c3Ser c3Entries) ∧
    totalObjectsCount (snapshotUploadSize true (unencryptedSize c3Ser c3Entries)) false =
      max (natDivCeil (snapshotUploadSize true (unencryptedSize c3Ser c3Entries)) MAX_OBJECT_SIZE)
        (if false then 1 else 0) ∧
    (c3Entries = [] →
      totalObjectsCount (snapshotUploadSize true (unencryptedSize c3Ser c3Entries)) false =
        if false then 1 else 0) :=
  c3_upload_size_accounting c3Ser c3Entries true false (by decide)

/-! ## Chunked encryption adapter (src/encrypt_stream.rs)

EncryptorBE32 is the external aead crate; its per-chunk output is
modelled from the spec: each ciphertext chunk is the plaintext chunk
followed by the 16-byte authentication tag (tag bytes abstracted as
zeros, only their count matters to the claims).  The adapter state is
the Option holding the encryptor (taken by encrypt_last) and the
chunks_encrypted counter; the unwrap of an empty Option is modelled as
the panicked outcome. -/

/-- Which encryptor operation a chunk went through. -/
inductive EncOp where
  | next
  | last
deriving DecidableEq, Repr

/-- Ciphertext of one chunk: plaintext plus 16 tag bytes (spec 4.D). -/
def encryptChunkBytes (payload : List Nat) : List Nat :=
  payload ++ List.replicate 16 0

/-- Outcome of running the encryption adapter over a chunk list. -/
inductive EncResult where
  | ok (chunks : List (EncOp × List Nat))
  | panicked
deriving DecidableEq, Repr

/-- The map closure of EncryptStream::encrypt, iterated over the
incoming chunks: choose encrypt_next while chunks_encrypted + 1 <
total_chunks, else encrypt_last which takes the encryptor out of the
Option; unwrapping the emptied Option panics. -/
def encryptGo (totalChunks : Nat) : Option Unit → Nat → List (List Nat) → EncResult
  | _, _, [] => .ok []
  | encryptor, chunksEncrypted, payload :: rest =>
    if chunksEncrypted + 1 < totalChunks then
      match encryptor with
      | some _ =>
        match encryptGo totalChunks (some ()) (chunksEncrypted + 1) rest with
        | .ok tail => .ok ((.next, encryptChunkBytes payload) :: tail)
        | .panicked => .panicked
      | none => .panicked
    else
      match encryptor with
      | some _ =>
        match encryptGo totalChunks none (chunksEncrypted + 1) rest with
        | .ok tail => .ok ((.last, encryptChunkBytes payload) :: tail)
        | .panicked => .panicked
      | none => .panicked

/-- EncryptStream::encrypt of src/encrypt_stream.rs applied to a chunk
stream: starts with the encryptor present and the counter at 0. -/
def encryptStreamRun (totalChunks : Nat) (chunks : List (List Nat)) : EncResult :=
  encryptGo totalChunks (some ()) 0 chunks

/-- Expected adapter output: encrypt_next on every chunk but the last,
encrypt_last on the last. -/
def expectedEnc : List (List Nat) → List (EncOp × List Nat)
  | [] => []
  | [c] => [(.last, encryptChunkBytes c)]
  | c :: c2 :: rest => (.next, encryptChunkBytes c) :: expectedEnc (c2 :: rest)

theorem encryptGo_none_panics (t k : Nat) (c : List Nat) (rest : List (List Nat)) :
    encryptGo t none k (c :: rest) = .panicked := by
  unfold encryptGo
  split <;> rfl

theorem encryptGo_overflow (t : Nat) :
    ∀ (inputs : List (List Nat)) (k : Nat), k < t → t < k + inputs.length →
      encryptGo t (some ()) k inputs = .panicked := by
  intro inputs
  induction inputs with
  | nil => intro k hk habs; simp at habs; omega
  | cons c rest ih =>
    intro k hk hlen
    by_cases h : k + 1 < t
    · have := ih (k + 1) h (by simp at hlen ⊢; omega)
      unfold encryptGo
      rw [if_pos h]
      simp [this]
    · have hkt : k + 1 = t := by omega
      have hrest : 1 ≤ rest.length := by simp at hlen; omega
      unfold encryptGo
      rw [if_neg h]
      rcases rest with _ | ⟨r, rest2⟩
      · simp at hrest
      · simp [encryptGo_none_panics]

theorem encryptGo_exact (t : Nat) :
    ∀ (inputs : List (List Nat)) (k : Nat), 1 ≤ inputs.length →
      k + inputs.length = t →
      encryptGo t (some ()) k inputs = .ok (expectedEnc inputs) := by
  intro inputs
  induction inputs with
  | nil => intro k h; simp at h
  | cons c rest ih =>
    intro k _ hlen
    rcases rest with _ | ⟨c2, rest2⟩
    · have hkt : ¬ k + 1 < t := by simp at hlen; omega
      unfold encryptGo
      rw [if_neg hkt]
      simp [encryptGo, expectedEnc]
    · have hkt : k + 1 < t := by simp at hlen ⊢; omega
      have := ih (k + 1) (by simp) (by simp at hlen ⊢; omega)
      unfold encryptGo
      rw [if_pos hkt]
      simp [this, expectedEnc]

theorem expectedEnc_snd_lengths :
    ∀ l : List (List Nat),
      (expectedEnc l).map (fun o => o.2.length) = l.map (fun c => c.length + 16) := by
  intro l
  induction l with
  | nil => rfl
  | cons c rest ih =>
    rcases rest with _ | ⟨c2, rest2⟩
    · simp [expectedEnc, encryptChunkBytes]
    · simp only [expectedEnc, List.map_cons] at ih ⊢
      simp [ih, encryptChunkBytes]

theorem expectedEnc_ops :
    ∀ l : List (List Nat), 1 ≤ l.length →
      (expectedEnc l).map Prod.fst =
        List.replicate (l.length - 1) EncOp.next ++ [EncOp.last] := by
  intro l
  induction l with
  | nil => intro h; simp at h
  | cons c rest ih =>
    intro _
    rcases rest with _ | ⟨c2, rest2⟩
    · simp [expectedEnc]
    · have := ih (by simp)
      simp only [expectedEnc, List.map_cons, this]
      simp [List.replicate_succ]

/-- C10: with an input of exactly total_chunks chunks (at least one),
the adapter never unwraps an empty encryptor: it succeeds, applies
encrypt_next to every chunk but the last and encrypt_last to the last,
and each ciphertext chunk is exactly 16 bytes longer than its
plaintext; any input with more than total_chunks chunks reaches the
unwrap-of-None panic. -/
theorem c10_encrypt_stream (t : Nat) (inputs : List (List Nat))
    (h1 : 1 ≤ t) (h2 : inputs.length = t) :
    encryptStreamRun t inputs = .ok (expectedEnc inputs) ∧
    (expectedEnc inputs).map Prod.fst =
      List.replicate (t - 1) EncOp.next ++ [EncOp.last] ∧
    (expectedEnc inputs).map (fun o => o.2.length) =
      inputs.map (fun c => c.length + 16) ∧
    (∀ extra : List (List Nat), 1 ≤ extra.length →
      encryptStreamRun t (inputs ++ extra) = .panicked) := by
  refine ⟨?_, ?_, expectedEnc_snd_lengths inputs, ?_⟩
  · exact encryptGo_exact t inputs 0 (by omega) (by omega)
  · rw [← h2]
    exact expectedEnc_ops inputs (by omega)
  · intro extra hextra
    exact encryptGo_overflow t (inputs ++ extra) 0 (by omega) (by simp; omega)

/-- Witness for C10 at total_chunks 2: two chunks encrypt cleanly, a
third reaches the panic. -/
theorem c10_encrypt_stream_witness :
    encryptStreamRun 2 [[5], [6, 7]] = .ok (expectedEnc [[5], [6, 7]]) ∧
    encryptStreamRun 2 [[5], [6, 7], [9]] = .panicked := by
  refine ⟨(c10_encrypt_stream 2 [[5], [6, 7]] (by decide) (by decide)).1, ?_⟩
  have := (c10_encrypt_stream 2 [[5], [6, 7]] (by decide) (by decide)).2.2.2 [[9]]
    (by decide)
  simpa using this

/-! ## Re-chunker (src/chunks_stream.rs)

ChunksStreamOfStreams holds an upstream of byte chunks and an Option
buffer with the partial chunk left by a previous take.  The unfold of
take_bytes_stream is modelled with the upstream as the list of chunks
still to come.  Rust computes n_bytes - count in usize; when count
exceeds n_bytes that subtraction underflows and Bytes::split_off
panics, modelled as the panicked outcome. -/

/-- State behind the mutex: leftover buffer plus remaining upstream. -/
structure ChunksStreamState where
  buffer : Option (List Nat)
  upstream : List (List Nat)
deriving DecidableEq, Repr

/-- Result of one take_bytes_stream call. -/
inductive TakeResult where
  | ok (emitted : List (List Nat)) (final : ChunksStreamState)
  | panicked
deriving DecidableEq, Repr

/-- The unfold loop of take_bytes_stream after the buffer (if any) was
served: count bytes were already emitted; stop when count equals
n_bytes, otherwise pull the next upstream chunk, splitting it when it
reaches n_bytes and stashing the remainder in the buffer. -/
def takePull (n : Nat) : Nat → List (List Nat) → TakeResult
  | count, upstream =>
    if count = n then .ok [] ⟨none, upstream⟩
    else
      match upstream with
      | [] => .ok [] ⟨none, []⟩
      | b :: rest =>
        if n < count then .panicked
        else if n ≤ count + b.length then
          .ok [b.take (n - count)] ⟨some (b.drop (n - count)), rest⟩
        else
          match takePull n (count + b.length) rest with
          | .ok em fin => .ok (b :: em) fin
          | .panicked => .panicked

/-- take_bytes_stream of src/chunks_stream.rs: the loop starts at
count 0; a present buffer is taken and emitted whole (unless n is 0, in
which case the stream ends before touching it), and the loop continues
with count advanced by the full buffer length. -/
def takeBytesStream (n : Nat) (st : ChunksStreamState) : TakeResult :=
  match st.buffer with
  | some buf =>
    if n = 0 then .ok [] st
    else
      match takePull n buf.length st.upstream with
      | .ok em fin => .ok (buf :: em) fin
      | .panicked => .panicked
  | none => takePull n 0 st.upstream

/-- Bytes sitting in the buffer of a state. -/
def bufferBytes (st : ChunksStreamState) : List Nat := st.buffer.getD []

/-- All bytes still to come from a state: buffer then upstream. -/
def stateBytes (st : ChunksStreamState) : List Nat :=
  bufferBytes st ++ st.upstream.flatten

/-- C4 fails on the code: a take(1) on upstream [[1,2,3]] leaves the
2-byte remainder buffered, and the next take(1) emits that whole 2-byte
buffer, so the second returned stream yields 2 bytes, exceeding n = 1. -/
theorem c4_take_bytes_counterexample :
    takeBytesStream 1 ⟨none, [[1, 2, 3]]⟩ = .ok [[1]] ⟨some [2, 3], []⟩ ∧
    takeBytesStream 1 ⟨some [2, 3], []⟩ = .ok [[2, 3]] ⟨none, []⟩ ∧
    ¬ (([[2, 3]].map List.length).sum ≤ 1) := by
  refine ⟨?_, ?_, by decide⟩ <;> rfl

theorem takePull_spec (n : Nat) :
    ∀ (upstream : List (List Nat)) (count : Nat), count ≤ n →
      ∃ em fin, takePull n count upstream = .ok em fin ∧
        (em.map List.length).sum ≤ n - count ∧
        em.flatten ++ stateBytes fin = upstream.flatten := by
  intro upstream
  induction upstream with
  | nil =>
    intro count hc
    by_cases h : count = n
    · exact ⟨[], ⟨none, []⟩, by simp [takePull, h], by simp, by simp [stateBytes, bufferBytes]⟩
    · exact ⟨[], ⟨none, []⟩, by simp [takePull, h], by simp, by simp [stateBytes, bufferBytes]⟩
  | cons b rest ih =>
    intro count hc
    by_cases h : count = n
    · exact ⟨[], ⟨none, b :: rest⟩, by simp [takePull, h], by simp,
        by simp [stateBytes, bufferBytes]⟩
    · have hlt : count < n := by omega
      by_cases hsplit : n ≤ count + b.length
      · refine ⟨[b.take (n - count)], ⟨some (b.drop (n - count)), rest⟩, ?_, ?_, ?_⟩
        · unfold takePull
          rw [if_neg h]
          dsimp only
          rw [if_neg (by omega : ¬ n < count), if_pos hsplit]
        · simp [List.length_take]
        · simp only [stateBytes, bufferBytes, Option.getD, List.flatten_cons,
            List.flatten_nil, List.append_nil]
          rw [← List.append_assoc, List.take_append_drop]
      · obtain ⟨em, fin, heq, hsum, hbytes⟩ := ih (count + b.length) (by omega)
        refine ⟨b :: em, fin, ?_, ?_, ?_⟩
        · unfold takePull
          rw [if_neg h]
          dsimp only
          rw [if_neg (by omega : ¬ n < count), if_neg hsplit, heq]
        · simp at hsum ⊢
          omega
        · simp [hbytes]

/-- C4 amended: a take_bytes_stream(n) call on a state whose buffered
leftover holds at most n bytes yields at most n bytes in total, and the
bytes it emits followed by the bytes still held in the resulting state
are exactly the bytes held by the starting state, so successive calls
continue the upstream where the previous call stopped.  (A buffered
leftover longer than n is emitted whole, which is the corrected part of
the claim.) -/
theorem c4_take_bytes_amended (n : Nat) (st : ChunksStreamState)
    (h : (bufferBytes st).length ≤ n) :
    ∃ em fin, takeBytesStream n st = .ok em fin ∧
      (em.map List.length).sum ≤ n ∧
      em.flatten ++ stateBytes fin = stateBytes st := by
  rcases st with ⟨buffer, upstream⟩
  rcases buffer with _ | ⟨buf⟩
  · obtain ⟨em, fin, heq, hsum, hbytes⟩ := takePull_spec n upstream 0 (by omega)
    exact ⟨em, fin, by simp [takeBytesStream, heq], by omega,
      by simpa [stateBytes, bufferBytes] using hbytes⟩
  · simp only [bufferBytes, Option.getD] at h
    by_cases hn : n = 0
    · refine ⟨[], ⟨some buf, upstream⟩, ?_, by simp, by simp [stateBytes, bufferBytes]⟩
      simp [takeBytesStream, hn]
    · obtain ⟨em, fin, heq, hsum, hbytes⟩ := takePull_spec n upstream buf.length h
      refine ⟨buf :: em, fin, ?_, ?_, ?_⟩
      · simp [takeBytesStream, hn, heq]
      · simp at hsum ⊢
        omega
      · simp [stateBytes, bufferBytes, ← hbytes]

/-- Witness for C4 amended: a take(2) beginning with a 1-byte buffered
leftover. -/
theorem c4_take_bytes_amended_witness :
    ∃ em fin, takeBytesStream 2 ⟨some [7], [[8, 9]]⟩ = .ok em fin ∧
      (em.map List.length).sum ≤ 2 ∧
      em.flatten ++ stateBytes fin = stateBytes ⟨some [7], [[8, 9]]⟩ :=
  c4_take_bytes_amended 2 ⟨some [7], [[8, 9]]⟩ (by decide)

/-! ## Stepwise retry driver (src/retry_steps_2.rs)

retry_with_steps_2 loops: run a step; on Err propagate; on Finished
return; on NotFinished save the new persistent state and continue.  The
source calls .unwrap() on the save result, so a failing save is a
panic, modelled as the panicked outcome.  The loop is given fuel (the
source can loop forever); the run also yields the trace of step and
save events so ordering is visible. -/

/-- RetryStepOutput2 of src/retry_steps_2.rs. -/
inductive RetryStepOutput2 (M P Output : Type) where
  | notFinished (memoryData : M) (persistentData : P)
  | finished (o : Output)
deriving DecidableEq, Repr

/-- Observable events of a run: a step executed on a persistent state,
or the state saver invoked on a persistent state. -/
inductive RunEvent (P : Type) where
  | step (p : P)
  | save (p : P)
deriving DecidableEq, Repr

/-- Result of a run of the driver. -/
inductive RunResult (Output StepError SaveError : Type) where
  | finished (o : Output)
  | stepError (e : StepError)
  | panicked (e : SaveError)
  | outOfFuel
deriving DecidableEq, Repr

/-- retry_with_steps_2 of src/retry_steps_2.rs with an explicit fuel
bound on the number of loop iterations, returning the run result and
the event trace. -/
def retryWithSteps2 {M P Output StepError SaveError : Type}
    (fuel : Nat)
    (doStep : M → P → Except StepError (RetryStepOutput2 M P Output))
    (saveState : P → Except SaveError Unit)
    (memoryData : M) (persistentData : P) :
    RunResult Output StepError SaveError × List (RunEvent P) :=
  match fuel with
  | 0 => (.outOfFuel, [])
  | fuel + 1 =>
    match doStep memoryData persistentData with
    | .error e => (.stepError e, [.step persistentData])
    | .ok (.finished o) => (.finished o, [.step persistentData])
    | .ok (.notFinished m2 p2) =>
      match saveState p2 with
      | .error e => (.panicked e, [.step persistentData, .save p2])
      | .ok _ =>
        let r := retryWithSteps2 fuel doStep saveState m2 p2
        (r.1, .step persistentData :: .save p2 :: r.2)

/-- Step doer whose single step always asks to continue. -/
def c2StepDoer : Unit → Unit → Except Unit (RetryStepOutput2 Unit Unit Unit) :=
  fun _ _ => .ok (.notFinished () ())

/-- State saver that always fails. -/
def c2FailingSaver : Unit → Except Unit Unit := fun _ => .error ()

/-- C2 fails on the code as stated: when the first save fails, the run
does not return the save failure to its caller as the result of the
run (the only error result the caller receives has the step-error
shape); the source unwraps the save result and panics instead. -/
theorem c2_save_error_counterexample :
    (retryWithSteps2 3 c2StepDoer c2FailingSaver () ()).1 = .panicked () ∧
    (retryWithSteps2 3 c2StepDoer c2FailingSaver () ()).1 ≠ .stepError () ∧
    (retryWithSteps2 3 c2StepDoer c2FailingSaver () ()).1 ≠ .finished () := by
  refine ⟨rfl, by decide, by decide⟩

/-- C2 amended: on NotFinished the driver calls the state saver on the
new persistent state immediately after the step, and a failing save
aborts the run with a panic carrying the save error: the failure is
never swallowed and no further step runs (the trace ends at that save
event). -/
theorem c2_save_error_aborts {M P Output StepError SaveError : Type}
    (fuel : Nat)
    (doStep : M → P → Except StepError (RetryStepOutput2 M P Output))
    (saveState : P → Except SaveError Unit)
    (m : M) (p : P) (m2 : M) (p2 : P) (e : SaveError)
    (hfuel : 1 ≤ fuel)
    (hstep : doStep m p = .ok (.notFinished m2 p2))
    (hsave : saveState p2 = .error e) :
    retryWithSteps2 fuel doStep saveState m p =
      (.panicked e, [.step p, .save p2]) := by
  rcases fuel with _ | fuel
  · omega
  · unfold retryWithSteps2
    rw [hstep]
    dsimp only
    rw [hsave]

/-- Witness for C2 amended at the concrete always-continue step doer
and always-failing saver. -/
theorem c2_save_error_aborts_witness :
    retryWithSteps2 1 c2StepDoer c2FailingSaver () () =
      (.panicked (), [.step (), .save ()]) :=
  c2_save_error_aborts 1 c2StepDoer c2FailingSaver () () () () ()
    (by omega) rfl rfl

/-! ## Path ordering (PathBuf comparison used by sort_by_key)

Rust compares PathBuf values component by component, each component by
its byte sequence.  Components are modelled as strings compared by
their character sequences (identical to byte order on ASCII). -/

/-- Lexicographic strict order on character sequences. -/
def charsLtB : List Char → List Char → Bool
  | [], [] => false
  | [], _ :: _ => true
  | _ :: _, [] => false
  | a :: as, b :: bs =>
    if a.toNat < b.toNat then true
    else if b.toNat < a.toNat then false
    else charsLtB as bs

/-- Strict order on component strings. -/
def strLtB (a b : String) : Bool := charsLtB a.data b.data

/-- Non-strict component-wise path order, modelling the PathBuf Ord
used by sort_by_key in src/optimize_diff_entries.rs and
src/diff_or_first.rs: a path that is a strict prefix sorts first. -/
def pathLeB : FsPath → FsPath → Bool
  | [], _ => true
  | _ :: _, [] => false
  | a :: as, b :: bs =>
    if a = b then pathLeB as bs
    else strLtB a b

/-- Path::starts_with of Rust: component-wise list prefix. -/
def pathStartsWithB : FsPath → FsPath → Bool
  | _, [] => true
  | [], _ :: _ => false
  | a :: as, b :: bs => if a = b then pathStartsWithB as bs else false

/-- The path order as a relation on diff entries, the sort key of both
sort sites. -/
def pathLeProp {T : Type} (a b : DiffEntry T) : Prop := pathLeB a.path b.path = true

instance {T : Type} : DecidableRel (@pathLeProp T) := fun a b =>
  inferInstanceAs (Decidable (pathLeB a.path b.path = true))

theorem charsLtB_irrefl : ∀ x : List Char, charsLtB x x = false := by
  intro x
  induction x with
  | nil => rfl
  | cons a as ih => simp [charsLtB, ih]

theorem charsLtB_eq_of_not : ∀ x y : List Char,
    charsLtB x y = false → charsLtB y x = false → x = y := by
  intro x
  induction x with
  | nil =>
    intro y h1 _
    cases y with
    | nil => rfl
    | cons b bs => simp [charsLtB] at h1
  | cons a as ih =>
    intro y h1 h2
    cases y with
    | nil => simp [charsLtB] at h2
    | cons b bs =>
      by_cases hab : a.toNat < b.toNat
      · simp [charsLtB, hab] at h1
      · by_cases hba : b.toNat < a.toNat
        · simp [charsLtB, hba, hab] at h2
        · have heq : a = b :=
            Char.ext (UInt32.ext (show a.toNat = b.toNat by omega))
          simp only [charsLtB, if_neg hab, if_neg hba] at h1
          simp only [charsLtB, if_neg hba, if_neg hab] at h2
          rw [heq, ih bs h1 h2]

theorem charsLtB_trans : ∀ x y z : List Char,
    charsLtB x y = true → charsLtB y z = true → charsLtB x z = true := by
  intro x
  induction x with
  | nil =>
    intro y z h1 h2
    cases y with
    | nil => simp [charsLtB] at h1
    | cons b bs =>
      cases z with
      | nil => simp [charsLtB] at h2
      | cons c cs => rfl
  | cons a as ih =>
    intro y z h1 h2
    cases y with
    | nil => simp [charsLtB] at h1
    | cons b bs =>
      cases z with
      | nil => simp [charsLtB] at h2
      | cons c cs =>
        by_cases hab : a.toNat < b.toNat <;> by_cases hbc : b.toNat < c.toNat
        · have hac : a.toNat < c.toNat := by omega
          show (if a.toNat < c.toNat then true
                else if c.toNat < a.toNat then false else charsLtB as cs) = true
          rw [if_pos hac]
        · by_cases hcb : c.toNat < b.toNat
          · simp [charsLtB, hbc, hcb] at h2
          · have hac : a.toNat < c.toNat := by omega
            show (if a.toNat < c.toNat then true
                  else if c.toNat < a.toNat then false else charsLtB as cs) = true
            rw [if_pos hac]
        · by_cases hba : b.toNat < a.toNat
          · simp [charsLtB, hab, hba] at h1
          · have hac : a.toNat < c.toNat := by omega
            show (if a.toNat < c.toNat then true
                  else if c.toNat < a.toNat then false else charsLtB as cs) = true
            rw [if_pos hac]
        · by_cases hba : b.toNat < a.toNat
          · simp [charsLtB, hab, hba] at h1
          · by_cases hcb : c.toNat < b.toNat
            · simp [charsLtB, hbc, hcb] at h2
            · have hac : ¬ a.toNat < c.toNat := by omega
              have hca : ¬ c.toNat < a.toNat := by omega
              simp only [charsLtB, if_neg hab, if_neg hba] at h1
              simp only [charsLtB, if_neg hbc, if_neg hcb] at h2
              simp only [charsLtB, if_neg hac, if_neg hca]
              exact ih bs cs h1 h2

theorem strLtB_irrefl (a : String) : strLtB a a = false := charsLtB_irrefl a.data

theorem strLtB_eq_of_not (a b : String)
    (h1 : strLtB a b = false) (h2 : strLtB b a = false) : a = b := by
  cases a with
  | mk da =>
    cases b with
    | mk db =>
      have := charsLtB_eq_of_not da db h1 h2
      rw [this]

theorem strLtB_trans (a b c : String)
    (h1 : strLtB a b = true) (h2 : strLtB b c = true) : strLtB a c = true :=
  charsLtB_trans a.data b.data c.data h1 h2

theorem pathLeB_total : ∀ a b : FsPath, pathLeB a b = true ∨ pathLeB b a = true := by
  intro a
  induction a with
  | nil => intro b; left; cases b <;> rfl
  | cons x xs ih =>
    intro b
    cases b with
    | nil => right; rfl
    | cons y ys =>
      by_cases hxy : x = y
      · subst hxy
        rcases ih ys with h | h
        · left
          simpa [pathLeB] using h
        · right
          simpa [pathLeB] using h
      · have hyx : ¬ y = x := fun h => hxy h.symm
        by_cases hlt : strLtB x y = true
        · left
          simp [pathLeB, hxy, hlt]
        · by_cases hgt : strLtB y x = true
          · right
            simp [pathLeB, hyx, hgt]
          · exact absurd
              (strLtB_eq_of_not x y (by simpa using hlt) (by simpa using hgt)) hxy

theorem pathLeB_trans : ∀ a b c : FsPath,
    pathLeB a b = true → pathLeB b c = true → pathLeB a c = true := by
  intro a
  induction a with
  | nil => intro b c _ _; cases c <;> rfl
  | cons x xs ih =>
    intro b c h1 h2
    cases b with
    | nil => simp [pathLeB] at h1
    | cons y ys =>
      cases c with
      | nil => simp [pathLeB] at h2
      | cons z zs =>
        by_cases hxy : x = y <;> by_cases hyz : y = z
        · subst hxy; subst hyz
          simp only [pathLeB, if_pos rfl] at h1 h2 ⊢
          exact ih ys zs h1 h2
        · subst hxy
          have hxz : ¬ x = z := hyz
          simp only [pathLeB, if_pos rfl] at h1
          simp only [pathLeB, if_neg hyz] at h2
          simp only [pathLeB, if_neg hxz]
          exact h2
        · subst hyz
          simp only [pathLeB, if_neg hxy] at h1
          simp only [pathLeB, if_neg hxy]
          exact h1
        · simp only [pathLeB, if_neg hxy] at h1
          simp only [pathLeB, if_neg hyz] at h2
          have hxz : ¬ x = z := by
            intro h
            subst h
            have := strLtB_trans x y x h1 h2
            rw [strLtB_irrefl] at this
            cases this
          simp only [pathLeB, if_neg hxz]
          exact strLtB_trans x y z h1 h2

instance {T : Type} : IsTotal (DiffEntry T) pathLeProp :=
  ⟨fun a b => pathLeB_total a.path b.path⟩

instance {T : Type} : IsTrans (DiffEntry T) pathLeProp :=
  ⟨fun a b c => pathLeB_trans a.path b.path c.path⟩

/-! ## Diff-entry optimizer (src/optimize_diff_entries.rs) -/

/-- Match of DiffType::Removed. -/
def isRemovedB {T : Type} : DiffType T → Bool
  | .Removed => true
  | _ => false

/-- Removal decision of the optimizer loop body for the entry e found
at index i of the current vector. -/
def shouldRemoveEntry {T : Type} (entries : List (DiffEntry T)) (i : Nat)
    (e : DiffEntry T) : Bool :=
  match e.file_type with
  | .Directory =>
    match e.diff_type with
    | .Modified _ => true
    | .Created _ =>
      let folderIsEmpty : Bool :=
        match entries[i + 1]? with
        | some e2 => ! pathStartsWithB e2.path e.path
        | none => true
      ! folderIsEmpty
    | _ => false
  | .RegularFile =>
    match e.diff_type with
    | .Removed =>
      match i with
      | 0 => false
      | j + 1 =>
        match entries[j]? with
        | some maybeParentFolder =>
          decide (maybeParentFolder.file_type = .Directory) &&
            pathStartsWithB e.path maybeParentFolder.path &&
            isRemovedB maybeParentFolder.diff_type
        | none => false
    | _ => false

/-- The optimizer removal loop: inspect the entry at index i, remove it
when the body says so, and continue at i + 1 in either case (the source
increments i after a removal too, stepping over the element that
shifted into place).  Fuel strictly exceeds the number of loop rounds:
i grows every round and the loop ends once i reaches the (never
growing) length, so length + 1 rounds always suffice. -/
def optimizeLoop {T : Type} : Nat → List (DiffEntry T) → Nat → List (DiffEntry T)
  | 0, entries, _ => entries
  | fuel + 1, entries, i =>
    match entries[i]? with
    | none => entries
    | some e =>
      if shouldRemoveEntry entries i e then
        optimizeLoop fuel (entries.eraseIdx i) (i + 1)
      else
        optimizeLoop fuel entries (i + 1)

/-- optimize_diff_entries of src/optimize_diff_entries.rs: stable sort
by path, then the removal walk.  Vec::sort_by_key is a stable sort, so
its output list is exactly the one produced by any stable sort,
modelled here by insertion sort. -/
def optimizeDiffEntries {T : Type} (entries : List (DiffEntry T)) : List (DiffEntry T) :=
  let sorted := List.insertionSort pathLeProp entries
  optimizeLoop (sorted.length + 1) sorted 0

/-- Directory entries that are Modified, surviving in a list. -/
def hasModifiedDir {T : Type} (l : List (DiffEntry T)) : Bool :=
  l.any fun d =>
    decide (d.file_type = .Directory) &&
      (match d.diff_type with
       | .Modified _ => true
       | _ => false)

/-- A path strictly under a directory path: extends it properly. -/
def strictlyUnderB (dir p : FsPath) : Bool :=
  pathStartsWithB p dir && decide (dir ≠ p)

/-- Created directory entries with some other entry strictly below. -/
def hasCreatedDirWithChild {T : Type} (l : List (DiffEntry T)) : Bool :=
  l.any fun d =>
    decide (d.file_type = .Directory) &&
      (match d.diff_type with
       | .Created _ => true
       | _ => false) &&
      l.any (fun e => strictlyUnderB d.path e.path)

/-- Removed regular files whose parent directory appears Removed. -/
def hasRemovedFileWithRemovedParent {T : Type} (l : List (DiffEntry T)) : Bool :=
  l.any fun e =>
    decide (e.file_type = .RegularFile) && isRemovedB e.diff_type &&
      l.any (fun p =>
        decide (p.file_type = .Directory) && isRemovedB p.diff_type &&
          decide (p.path = e.path.dropLast))

/-- Two modified directories: removing the first shifts the second into
its index, which the i increment then steps over. -/
def c6Input : List (DiffEntry Unit) :=
  [⟨["a"], .Directory, .Modified ()⟩, ⟨["b"], .Directory, .Modified ()⟩]

/-- C6 fails on the code: optimize_diff_entries is not idempotent.  On
two modified directories the first pass removes only the first one
(the loop increments i past the element that slid into the removed
slot), so a second pass removes the survivor and the output changes. -/
theorem c6_optimizer_not_idempotent :
    optimizeDiffEntries c6Input = [⟨["b"], .Directory, .Modified ()⟩] ∧
    optimizeDiffEntries (optimizeDiffEntries c6Input) = [] ∧
    optimizeDiffEntries (optimizeDiffEntries c6Input) ≠ optimizeDiffEntries c6Input := by
  decide

/-- A removed directory with two removed files inside it. -/
def c7Input : List (DiffEntry Unit) :=
  [⟨["d"], .Directory, .Removed⟩,
   ⟨["d", "f1"], .RegularFile, .Removed⟩,
   ⟨["d", "f2"], .RegularFile, .Removed⟩]

/-- A created directory chain with a file at the bottom. -/
def c7InputB : List (DiffEntry Unit) :=
  [⟨["a"], .Directory, .Created ()⟩,
   ⟨["a", "b"], .Directory, .Created ()⟩,
   ⟨["a", "b", "c"], .RegularFile, .Created ()⟩]

/-- C7 fails on the code: after optimization a Removed regular file can
survive although its parent directory is Removed (removing d/f1 shifts
d/f2 to the skipped index), and a Created directory can survive with
entries strictly under it (removing a shifts a/b to the skipped
index). -/
theorem c7_optimizer_invariants_fail :
    optimizeDiffEntries c7Input =
      [⟨["d"], .Directory, .Removed⟩, ⟨["d", "f2"], .RegularFile, .Removed⟩] ∧
    hasRemovedFileWithRemovedParent (optimizeDiffEntries c7Input) = true ∧
    optimizeDiffEntries c7InputB =
      [⟨["a", "b"], .Directory, .Created ()⟩,
       ⟨["a", "b", "c"], .RegularFile, .Created ()⟩] ∧
    hasCreatedDirWithChild (optimizeDiffEntries c7InputB) = true := by
  decide

/-! ## Diff subsystem (src/diff_or_first.rs)

diff_or_first has two branches.  With a previous snapshot it runs the
external zfs diff, parses the tab-separated lines, drops modified
directories, and sorts by path.  Without one it walks the mount
recursively (src/read_dir_recursive.rs) and strips the mount-point
prefix from each walked path.  A raw line is modelled as its list of
tab-separated columns; the zfs command and the filesystem are the
external inputs.  The unordered stream combinators are modelled as the
in-order traversal (one admissible schedule). -/

/-- DiffType::map of the source. -/
def DiffType.mapPayload {T N : Type} (f : T → N) : DiffType T → DiffType N
  | .Created c => .Created (f c)
  | .Modified c => .Modified (f c)
  | .Renamed a => .Renamed a
  | .Removed => .Removed

/-- Splitting a path string on the separator into components, as
PathBuf does (an absolute path keeps a leading empty root component). -/
def splitOnSlashAux : List Char → List Char → List String
  | [], acc => [String.mk acc.reverse]
  | c :: rest, acc =>
    if c = '/' then String.mk acc.reverse :: splitOnSlashAux rest []
    else splitOnSlashAux rest (c :: acc)

def splitOnSlash (s : String) : FsPath := splitOnSlashAux s.data []

/-- Character-sequence prefix test. -/
def charsStartWith : List Char → List Char → Bool
  | _, [] => true
  | [], _ :: _ => false
  | h :: hs, n :: ns => if h = n then charsStartWith hs ns else false

/-- Substring containment on character sequences. -/
def charsContain (needle : List Char) : List Char → Bool
  | [] => charsStartWith [] needle
  | c :: t => charsStartWith (c :: t) needle || charsContain needle t

/-- str::contains of Rust on the modelled strings. -/
def strContains (s pat : String) : Bool := charsContain pat.data s.data

/-- Collecting a fallible map over a list, stopping at the first
error: models collect::&lt;Result&lt;Vec, E&gt;&gt; over an iterator. -/
def collectExcept {α β ε : Type} (f : α → Except ε β) : List α → Except ε (List β)
  | [] => .ok []
  | x :: xs =>
    match f x with
    | .error e => .error e
    | .ok y =>
      match collectExcept f xs with
      | .error e => .error e
      | .ok ys => .ok (y :: ys)

/-- Change-marker parse of from_zfs_diff_line (column 0, with the
rename target in column 3). -/
def cond1 (marker : String) (columns : List String) : Except String (DiffType Unit) :=
  if marker = "-" then .ok .Removed
  else if marker = "+" then .ok (.Created ())
  else if marker = "M" then .ok (.Modified ())
  else if marker = "R" then
    match columns[3]? with
    | some target => .ok (.Renamed (splitOnSlash target))
    | none => .error "No renamed path"
  else .error "Unexpected diff type"

/-- Kind-marker parse of from_zfs_diff_line (column 1). -/
def cond2 (columns : List String) : Except String FileType :=
  match columns[1]? with
  | none => .error "Empty file type column"
  | some kind =>
    if kind = "/" then .ok .Directory
    else if kind = "F" then .ok .RegularFile
    else .error "Unexpected file type"

/-- DiffEntry::from_zfs_diff_line of src/diff_or_first.rs, on the
tab-separated columns of one line: column 2 is the path (lines holding
the xattrdir marker are skipped), column 0 the change marker, column 1
the kind marker, column 3 the rename target. -/
def fromZfsDiffLine (columns : List String) : Except String (Option (DiffEntry Unit)) :=
  match columns[2]? with
  | none => .error "Empty file path column"
  | some path =>
    if strContains path "<xattrdir>" then .ok none
    else
      match columns[0]? with
      | none => .error "Empty line"
      | some marker =>
        (cond1 marker columns).bind fun diffType =>
        (cond2 columns).bind fun fileType =>
        .ok (some ⟨splitOnSlash path, fileType, diffType⟩)

/-- parse_zfs_diff_output of src/diff_or_first.rs: parse every line,
fail on the first bad one, drop the skipped lines. -/
def parseZfsDiffOutput (lines : List (List String)) : Except String (List (DiffEntry Unit)) :=
  match collectExcept fromZfsDiffLine lines with
  | .error e => .error e
  | .ok parsed => .ok (parsed.filterMap id)

/-- The previous-snapshot branch of diff_or_first, applied to the
lines printed by zfs diff: parse, drop modified directories, erase the
payload to None, sort by path. -/
def zfsDiffBranch (lines : List (List String)) :
    Except String (List (DiffEntry (Option Nat))) :=
  match parseZfsDiffOutput lines with
  | .error e => .error e
  | .ok parsed =>
    let filtered := parsed.filter fun d =>
      ! (decide (d.file_type = .Directory) &&
         (match d.diff_type with
          | .Modified _ => true
          | _ => false))
    let mapped := filtered.map fun e =>
      DiffEntry.mk e.path e.file_type (e.diff_type.mapPayload fun _ => (none : Option Nat))
    .ok (List.insertionSort pathLeProp mapped)

/-- A snapshot filesystem: regular files with a length, directories
with a named child list in readdir order. -/
inductive FsTree where
  | file (len : Nat)
  | dir (entries : List (String × FsTree))

mutual

/-- read_dir_recursive of src/read_dir_recursive.rs on a directory
listing: emit each child path, recursing into subdirectories right
after their own entry. -/
def walkDirEntries (base : FsPath) : List (String × FsTree) → List (FsPath × FsTree)
  | [] => []
  | (name, child) :: rest =>
    (base ++ [name], child) ::
      (walkChildTree (base ++ [name]) child ++ walkDirEntries base rest)

/-- Recursion of the walk into one child node. -/
def walkChildTree (p : FsPath) : FsTree → List (FsPath × FsTree)
  | .file _ => []
  | .dir entries => walkDirEntries p entries

end

/-- Path::strip_prefix as used by the first-backup branch: drop the
mount components, error when the path does not start with them. -/
def stripMountPoint (mount p : FsPath) : Except String FsPath :=
  if pathStartsWithB p mount then .ok (p.drop mount.length)
  else .error "PathEscapesMount"

/-- Kind of a walked node. -/
def fsTreeFileType : FsTree → FileType
  | .file _ => .RegularFile
  | .dir _ => .Directory

/-- Created payload of a walked node: the file length for regular
files, none for directories. -/
def fsTreeContentLen : FsTree → Option Nat
  | .file len => some len
  | .dir _ => none

/-- The per-node body of the first-backup branch: strip the mount
point off the walked path and build a Created entry. -/
def walkEntryToDiff (mount : FsPath) (x : FsPath × FsTree) :
    Except String (DiffEntry (Option Nat)) :=
  match stripMountPoint mount x.1 with
  | .error e => .error e
  | .ok rel => .ok (DiffEntry.mk rel (fsTreeFileType x.2) (.Created (fsTreeContentLen x.2)))

/-- The first-backup branch of diff_or_first: walk the mount and build
a Created entry per walked node, path stripped of the mount point. -/
def firstBackupEntries (mount : FsPath) (root : List (String × FsTree)) :
    Except String (List (DiffEntry (Option Nat))) :=
  collectExcept (walkEntryToDiff mount) (walkDirEntries mount root)

/-- Directory listing whose readdir order is not path-sorted. -/
def c8Tree : List (String × FsTree) := [("b", .file 1), ("a", .file 1)]

/-- C8 fails on the code: the first-backup branch applies no sort, so
with a mount whose directory enumeration yields b before a the list
handed onward is not sorted by path. -/
theorem c8_first_backup_unsorted_counterexample :
    firstBackupEntries ["mnt"] c8Tree = .ok
      [⟨["b"], .RegularFile, .Created (some 1)⟩,
       ⟨["a"], .RegularFile, .Created (some 1)⟩] ∧
    pathLeB ["b"] ["a"] = false ∧
    ¬ List.Pairwise pathLeProp
      [(⟨["b"], .RegularFile, .Created (some 1)⟩ : DiffEntry (Option Nat)),
       ⟨["a"], .RegularFile, .Created (some 1)⟩] := by
  refine ⟨rfl, by decide, by decide⟩

/-- One created regular file as zfs diff prints it on a mount at
/mnt/d. -/
def c9Line : List String := ["+", "F", "/mnt/d/file"]

/-- C9 fails on the code: the zfs-diff branch keeps the parsed path
verbatim; the mount-point prefix /mnt/d is still present on the entry
and the path is not the relative one. -/
theorem c9_zfs_branch_keeps_absolute_path :
    zfsDiffBranch [c9Line] = .ok
      [⟨["", "mnt", "d", "file"], .RegularFile, .Created none⟩] ∧
    pathStartsWithB ["", "mnt", "d", "file"] ["", "mnt", "d"] = true ∧
    (["", "mnt", "d", "file"] : FsPath) ≠ ["file"] := by
  refine ⟨rfl, by decide, by decide⟩

/-! ## Structure of the recursive walk -/

theorem pathStartsWithB_append (base s : FsPath) :
    pathStartsWithB (base ++ s) base = true := by
  induction base with
  | nil => cases s <;> rfl
  | cons b bs ih => simp [pathStartsWithB, ih]

theorem stripMountPoint_append (mount s : FsPath) :
    stripMountPoint mount (mount ++ s) = .ok s := by
  simp [stripMountPoint, pathStartsWithB_append, List.drop_left]

mutual

theorem walkDirEntries_shape (base : FsPath) (l : List (String × FsTree)) :
    ∀ x ∈ walkDirEntries base l, ∃ n s, x.1 = base ++ n :: s ∧ n ∈ l.map Prod.fst := by
  match l with
  | [] =>
    intro x hx
    simp [walkDirEntries] at hx
  | (name, child) :: rest =>
    intro x hx
    simp only [walkDirEntries, List.mem_cons, List.mem_append] at hx
    rcases hx with h | h | h
    · subst h
      exact ⟨name, [], by simp, by simp⟩
    · obtain ⟨s, hs, hx1⟩ := walkChildTree_shape (base ++ [name]) child x h
      rcases s with _ | ⟨s0, stail⟩
      · exact absurd rfl hs
      · exact ⟨name, s0 :: stail, by simp [hx1], by simp⟩
    · obtain ⟨n, s, hx1, hn⟩ := walkDirEntries_shape base rest x h
      exact ⟨n, s, hx1, by simp [hn]⟩

theorem walkChildTree_shape (p : FsPath) (t : FsTree) :
    ∀ x ∈ walkChildTree p t, ∃ s, s ≠ [] ∧ x.1 = p ++ s := by
  match t with
  | .file len =>
    intro x hx
    simp [walkChildTree] at hx
  | .dir entries =>
    intro x hx
    obtain ⟨n, s, hx1, _⟩ := walkDirEntries_shape p entries x hx
    exact ⟨n :: s, by simp, hx1⟩

end

/-- A path strictly below another: extends it by at least one
component. -/
def properlyExtends (p q : FsPath) : Prop := ∃ s, s ≠ [] ∧ p = q ++ s

theorem not_properlyExtends_of_short {p q : FsPath}
    (h : p.length ≤ q.length) : ¬ properlyExtends p q := by
  rintro ⟨s, hs, rfl⟩
  rcases s with _ | ⟨a, t⟩
  · exact hs rfl
  · simp at h

mutual

/-- Every directory listing is free of repeated names, recursively. -/
def uniqueNamesList : List (String × FsTree) → Bool
  | [] => true
  | (n, c) :: rest =>
    (! rest.any fun x => decide (x.1 = n)) && uniqueNamesTree c && uniqueNamesList rest

/-- Unique names inside one node. -/
def uniqueNamesTree : FsTree → Bool
  | .file _ => true
  | .dir entries => uniqueNamesList entries

end

mutual

theorem walkDirEntries_parent_first (base : FsPath) (l : List (String × FsTree))
    (hu : uniqueNamesList l = true) :
    List.Pairwise (fun x y : FsPath × FsTree => ¬ properlyExtends x.1 y.1)
      (walkDirEntries base l) := by
  match l with
  | [] => exact List.Pairwise.nil
  | (name, child) :: rest =>
    simp only [uniqueNamesList, Bool.and_eq_true, Bool.not_eq_true',
      List.any_eq_false, decide_eq_true_eq] at hu
    obtain ⟨⟨hname, huc⟩, hur⟩ := hu
    have hchild := walkChildTree_parent_first (base ++ [name]) child huc
    have hrest := walkDirEntries_parent_first base rest hur
    simp only [walkDirEntries]
    refine List.Pairwise.cons ?_ ?_
    · intro y hy
      apply not_properlyExtends_of_short
      rcases List.mem_append.mp hy with h | h
      · obtain ⟨s, hs, h1⟩ := walkChildTree_shape (base ++ [name]) child y h
        rcases s with _ | ⟨s0, st⟩
        · exact absurd rfl hs
        · simp [h1]
      · obtain ⟨n, s, h1, _⟩ := walkDirEntries_shape base rest y h
        simp [h1]
    · rw [List.pairwise_append]
      refine ⟨hchild, hrest, ?_⟩
      intro a ha b hb
      obtain ⟨sa, hsa, ha1⟩ := walkChildTree_shape (base ++ [name]) child a ha
      obtain ⟨nb, sb, hb1, hnb⟩ := walkDirEntries_shape base rest b hb
      rintro ⟨s, hs, habs⟩
      rw [ha1, hb1, List.append_assoc, List.append_assoc] at habs
      have hcomp := List.append_cancel_left habs
      simp only [List.cons_append] at hcomp
      have hne : nb ≠ name := by
        rcases List.mem_map.mp hnb with ⟨xx, hxx, hfst⟩
        intro h
        exact hname xx hxx (by rw [hfst, h])
      exact hne (by injection hcomp with h1 _; exact h1.symm)

theorem walkChildTree_parent_first (p : FsPath) (t : FsTree)
    (hu : uniqueNamesTree t = true) :
    List.Pairwise (fun x y : FsPath × FsTree => ¬ properlyExtends x.1 y.1)
      (walkChildTree p t) := by
  match t with
  | .file len => exact List.Pairwise.nil
  | .dir entries => exact walkDirEntries_parent_first p entries hu

end

theorem collectExcept_walk (mount : FsPath) :
    ∀ ws : List (FsPath × FsTree), (∀ x ∈ ws, ∃ s, x.1 = mount ++ s) →
      ∃ l, collectExcept (walkEntryToDiff mount) ws = .ok l ∧
        l.map (fun e => mount ++ e.path) = ws.map Prod.fst := by
  intro ws
  induction ws with
  | nil => exact fun _ => ⟨[], rfl, rfl⟩
  | cons x xs ih =>
    intro h
    obtain ⟨s, hs⟩ := h x (by simp)
    obtain ⟨l, hl, hmap⟩ := ih (fun y hy => h y (by simp [hy]))
    refine ⟨⟨s, fsTreeFileType x.2, .Created (fsTreeContentLen x.2)⟩ :: l, ?_, ?_⟩
    · simp [collectExcept, walkEntryToDiff, hs, stripMountPoint_append, hl]
    · simp [hmap, hs]

theorem firstBackupEntries_ok (mount : FsPath) (root : List (String × FsTree)) :
    ∃ l, firstBackupEntries mount root = .ok l ∧
      l.map (fun e => mount ++ e.path) = (walkDirEntries mount root).map Prod.fst :=
  collectExcept_walk mount (walkDirEntries mount root) fun x hx => by
    obtain ⟨n, s, h1, _⟩ := walkDirEntries_shape mount root x hx
    exact ⟨n :: s, h1⟩

theorem collectExcept_mem {α β ε : Type} (f : α → Except ε β) :
    ∀ (xs : List α) (ys : List β), collectExcept f xs = .ok ys →
      ∀ y ∈ ys, ∃ x, x ∈ xs ∧ f x = .ok y := by
  intro xs
  induction xs with
  | nil =>
    intro ys h y hy
    simp only [collectExcept] at h
    cases h
    simp at hy
  | cons x xs ih =>
    intro ys h y hy
    cases hfx : f x with
    | error e =>
      simp [collectExcept, hfx] at h
    | ok y0 =>
      cases hrest : collectExcept f xs with
      | error e =>
        simp [collectExcept, hfx, hrest] at h
      | ok ys0 =>
        simp only [collectExcept, hfx, hrest] at h
        cases h
        rcases List.mem_cons.mp hy with h | h
        · exact ⟨x, by simp, by rw [hfx, h]⟩
        · obtain ⟨x1, hx1, hfx1⟩ := ih ys0 hrest y h
          exact ⟨x1, by simp [hx1], hfx1⟩

theorem fromZfsDiffLine_path (cols : List String) (p : DiffEntry Unit)
    (h : fromZfsDiffLine cols = .ok (some p)) :
    ∃ pathCol, cols[2]? = some pathCol ∧ p.path = splitOnSlash pathCol := by
  unfold fromZfsDiffLine at h
  cases hc2 : cols[2]? with
  | none => rw [hc2] at h; cases h
  | some path =>
    rw [hc2] at h
    dsimp only at h
    by_cases hx : strContains path "<xattrdir>" = true
    · rw [if_pos hx] at h
      cases h
    · rw [if_neg hx] at h
      cases hc0 : cols[0]? with
      | none => rw [hc0] at h; cases h
      | some marker =>
        rw [hc0] at h
        dsimp only at h
        cases hcond1 : cond1 marker cols with
        | error e => rw [hcond1] at h; cases h
        | ok dt =>
          rw [hcond1] at h
          simp only [Except.bind] at h
          cases hcond2 : cond2 cols with
          | error e => rw [hcond2] at h; cases h
          | ok ft =>
            rw [hcond2] at h
            simp only [Except.bind] at h
            cases h
            exact ⟨path, rfl, rfl⟩

theorem zfsDiffBranch_path_mem (lines : List (List String))
    (l : List (DiffEntry (Option Nat))) (h : zfsDiffBranch lines = .ok l) :
    ∀ e ∈ l, ∃ cols, cols ∈ lines ∧ ∃ pathCol, cols[2]? = some pathCol ∧
      e.path = splitOnSlash pathCol := by
  unfold zfsDiffBranch parseZfsDiffOutput at h
  cases hp : collectExcept fromZfsDiffLine lines with
  | error e2 =>
    rw [hp] at h
    cases h
  | ok parsedRaw =>
    rw [hp] at h
    simp only [Except.bind, bind, pure] at h
    cases h
    intro e he
    have he2 := (List.Perm.mem_iff (List.perm_insertionSort pathLeProp _)).mp he
    obtain ⟨e0, he0, heq⟩ := List.mem_map.mp he2
    have he0b := List.mem_filter.mp he0
    obtain ⟨a, ha, hae⟩ := List.mem_filterMap.mp he0b.1
    have hsome : a = some e0 := hae
    subst hsome
    obtain ⟨cols, hcols, hline⟩ := collectExcept_mem fromZfsDiffLine lines parsedRaw hp _ ha
    obtain ⟨pathCol, hpc, hpath⟩ := fromZfsDiffLine_path cols e0 hline
    exact ⟨cols, hcols, pathCol, hpc, by rw [← heq]; exact hpath⟩

/-- C9 amended: only the first-backup branch rewrites paths to be
relative to the mount point.  Its entries are exactly the walked paths
with the mount components dropped (re-appending the mount recovers the
walked path), and a path not starting with the mount is a strip error;
the zfs-diff branch keeps every path exactly as parsed from the zfs
diff output, mount prefix included. -/
theorem c9_path_relativity_amended :
    (∀ (mount : FsPath) (root : List (String × FsTree)),
      ∃ l, firstBackupEntries mount root = .ok l ∧
        l.map (fun e => mount ++ e.path) = (walkDirEntries mount root).map Prod.fst) ∧
    (∀ mount p, pathStartsWithB p mount = false →
      stripMountPoint mount p = .error "PathEscapesMount") ∧
    (∀ lines l, zfsDiffBranch lines = .ok l → ∀ e ∈ l,
      ∃ cols, cols ∈ lines ∧ ∃ pathCol, cols[2]? = some pathCol ∧
        e.path = splitOnSlash pathCol) := by
  refine ⟨firstBackupEntries_ok, ?_, zfsDiffBranch_path_mem⟩
  intro mount p h
  simp [stripMountPoint, h]

/-- Small mount tree for the C9 witness. -/
def c9Tree : List (String × FsTree) := [("x", .file 2)]

/-- Witness for C9 amended: the walk branch strips the mount, and a
path outside the mount is a strip error. -/
theorem c9_path_relativity_amended_witness :
    (∃ l, firstBackupEntries ["m"] c9Tree = .ok l ∧
      l.map (fun e => ["m"] ++ e.path) = (walkDirEntries ["m"] c9Tree).map Prod.fst) ∧
    stripMountPoint ["a"] ["b"] = .error "PathEscapesMount" :=
  ⟨c9_path_relativity_amended.1 ["m"] c9Tree,
   c9_path_relativity_amended.2.1 ["a"] ["b"] (by decide)⟩

/-- C8 amended: the zfs-diff branch output is sorted by path
(component-wise PathBuf order, directory parents before their
children); the first-backup branch emits entries in traversal order,
where an entry for a path inside a directory never precedes that
directory entry (given a filesystem with unique names per directory),
but the list as a whole is not sorted. -/
theorem c8_diff_order_amended :
    (∀ lines l, zfsDiffBranch lines = .ok l → List.Pairwise pathLeProp l) ∧
    (∀ (mount : FsPath) (root : List (String × FsTree)),
      uniqueNamesList root = true →
      ∀ l, firstBackupEntries mount root = .ok l →
        List.Pairwise
          (fun a b : DiffEntry (Option Nat) => ¬ properlyExtends a.path b.path) l) := by
  constructor
  · intro lines l h
    unfold zfsDiffBranch parseZfsDiffOutput at h
    cases hp : collectExcept fromZfsDiffLine lines with
    | error e2 =>
      rw [hp] at h
      cases h
    | ok parsedRaw =>
      rw [hp] at h
      simp only [Except.bind, bind, pure] at h
      cases h
      exact List.sorted_insertionSort pathLeProp _
  · intro mount root hu l hl
    obtain ⟨l0, hl0, hmap⟩ := firstBackupEntries_ok mount root
    rw [hl] at hl0
    cases hl0
    have hp := walkDirEntries_parent_first mount root hu
    have hp2 : List.Pairwise (fun p q : FsPath => ¬ properlyExtends p q)
        ((walkDirEntries mount root).map Prod.fst) :=
      List.pairwise_map.mpr hp
    rw [← hmap] at hp2
    have hp3 := List.pairwise_map.mp hp2
    refine hp3.imp ?_
    intro a b hab hext
    apply hab
    obtain ⟨s, hs, he⟩ := hext
    exact ⟨s, hs, by rw [he, List.append_assoc]⟩

/-- zfs diff lines out of order. -/
def c8Lines : List (List String) := [["+", "F", "/m/b"], ["+", "F", "/m/a"]]

/-- Mount tree with a directory and a file inside it. -/
def c8TreeW : List (String × FsTree) := [("d", .dir [("f", .file 1)])]

/-- Witness for C8 amended: the zfs branch sorts the two out-of-order
lines, and the walk of a one-directory tree puts the directory before
the file inside it. -/
theorem c8_diff_order_amended_witness :
    List.Pairwise pathLeProp
      [(⟨["", "m", "a"], .RegularFile, .Created none⟩ : DiffEntry (Option Nat)),
       ⟨["", "m", "b"], .RegularFile, .Created none⟩] ∧
    List.Pairwise
      (fun a b : DiffEntry (Option Nat) => ¬ properlyExtends a.path b.path)
      [⟨["d"], .Directory, .Created none⟩,
       ⟨["d", "f"], .RegularFile, .Created (some 1)⟩] :=
  ⟨c8_diff_order_amended.1 c8Lines _ rfl,
   c8_diff_order_amended.2 ["m"] c8TreeW (by decide) _ rfl⟩

end ZfsBackup
